import Mathlib

/-!
Verification of the `jsondb-high` storage engine against its specification.

The TypeScript layer (`JSONDatabase`, `QueryBuilder`, `deepEqual`,
`matchesPattern`, batch/transaction orchestration) is embedded directly from
the source.  The Rust native binding (`NativeDb`: the value tree, WAL and the
index hash map) is not part of the repository's sources; its operations are
modelled from the specification and each such definition says so in its doc
comment.
-/

set_option maxHeartbeats 1000000

/-- JavaScript numbers: IEEE-754 doubles, modelled as exact fractions
(an integer numerator over a positive natural denominator, not necessarily
reduced) extended with `NaN` and the two infinities.  All finite values the
engine produces have positive denominators; rounding of exact-double
arithmetic is not modelled, and no engine operation verified here depends on
it.  Two fractions denote the same JS number iff they cross-multiply
equally, which is what `strictEq` decides. -/
inductive JSNum where
  | nan
  | posInf
  | negInf
  | rat (n : Int) (d : Nat)
deriving DecidableEq

namespace JSNum

/-- JS `===` on numbers: `NaN` is not equal to anything, including itself;
fractions compare by cross-multiplication. -/
def strictEq : JSNum → JSNum → Bool
  | nan, _ => false
  | _, nan => false
  | posInf, posInf => true
  | negInf, negInf => true
  | rat a b, rat c d => a * (d : Int) == c * (b : Int)
  | _, _ => false

/-- JS numeric addition. -/
def addN : JSNum → JSNum → JSNum
  | nan, _ => nan
  | _, nan => nan
  | posInf, negInf => nan
  | negInf, posInf => nan
  | posInf, _ => posInf
  | _, posInf => posInf
  | negInf, _ => negInf
  | _, negInf => negInf
  | rat a b, rat c d => rat (a * (d : Int) + c * (b : Int)) (b * d)

/-- JS unary negation. -/
def negN : JSNum → JSNum
  | nan => nan
  | posInf => negInf
  | negInf => posInf
  | rat a b => rat (-a) b

/-- JS numeric subtraction. -/
def subN (a b : JSNum) : JSNum := addN a (negN b)

/-- `Math.min` on a pair: `NaN` wins, otherwise the smaller with
`-Infinity < finite values < Infinity` (fractions compared by
cross-multiplication, valid for the positive denominators the engine
produces). -/
def minN : JSNum → JSNum → JSNum
  | nan, _ => nan
  | _, nan => nan
  | negInf, _ => negInf
  | _, negInf => negInf
  | posInf, b => b
  | a, posInf => a
  | rat a b, rat c d => if a * (d : Int) ≤ c * (b : Int) then rat a b else rat c d

/-- JS division, used by `avg`: division by zero gives a signed infinity
(`0/0` gives `NaN`). -/
def divN : JSNum → JSNum → JSNum
  | nan, _ => nan
  | _, nan => nan
  | posInf, posInf => nan
  | posInf, negInf => nan
  | negInf, posInf => nan
  | negInf, negInf => nan
  | posInf, rat _ _ => posInf
  | negInf, rat _ _ => negInf
  | rat _ _, posInf => rat 0 1
  | rat _ _, negInf => rat 0 1
  | rat a b, rat c d =>
    if c = 0 then (if a = 0 then nan else if 0 < a then posInf else negInf)
    else rat (a * (d : Int) * c.sign) (b * c.natAbs)

/-- `String()` of a number.  Faithful for `NaN`, the infinities and
integer-valued numbers (the only numerals the engine's contracts and the
claims exercise); a non-integer fraction is rendered as `num/den` rather
than as a decimal expansion. -/
def toStr : JSNum → String
  | nan => "NaN"
  | posInf => "Infinity"
  | negInf => "-Infinity"
  | rat a b => if b = 1 then toString a else toString a ++ "/" ++ toString b

end JSNum

/-- JSON values (spec §3): a tagged union with `Null`, `Bool`, `Number`,
`String`, ordered `Array` and insertion-ordered `Object`. -/
inductive JSVal where
  | null
  | bool (b : Bool)
  | num (n : JSNum)
  | str (s : String)
  | arr (xs : List JSVal)
  | obj (fs : List (String × JSVal))

namespace JSVal

/-- First-match association lookup: JS object property access `o[k]`
(engine-built objects never repeat a key). -/
def lookupKey : List (String × JSVal) → String → Option JSVal
  | [], _ => none
  | (k, v) :: rest, key => if k = key then some v else lookupKey rest key

/-- JS assignment `o[k] = v`: replaces the value in place if the key exists,
otherwise appends (insertion order preserved). -/
def setKey : List (String × JSVal) → String → JSVal → List (String × JSVal)
  | [], key, v => [(key, v)]
  | (k, w) :: rest, key, v =>
    if k = key then (k, v) :: rest else (k, w) :: setKey rest key v

/-- `value && typeof value === 'object'` in JS: arrays and plain objects,
excluding `null`. -/
def isContainer : JSVal → Bool
  | arr _ => true
  | obj _ => true
  | _ => false

/-- Is the value a plain object? -/
def isObj : JSVal → Bool
  | obj _ => true
  | _ => false

end JSVal

mutual

/-- Structural (term-level) equality test for values, used only to obtain a
`DecidableEq` instance; the engine's own notion of equality is `deepEqual`
below. -/
def beqVal : JSVal → JSVal → Bool
  | .null, .null => true
  | .bool a, .bool b => a == b
  | .num a, .num b => a == b
  | .str a, .str b => a == b
  | .arr xs, .arr ys => beqValList xs ys
  | .obj fs, .obj gs => beqValFields fs gs
  | _, _ => false

def beqValList : List JSVal → List JSVal → Bool
  | [], [] => true
  | x :: xs, y :: ys => beqVal x y && beqValList xs ys
  | _, _ => false

def beqValFields : List (String × JSVal) → List (String × JSVal) → Bool
  | [], [] => true
  | (k, v) :: fs, (l, w) :: gs => k == l && beqVal v w && beqValFields fs gs
  | _, _ => false

end

mutual

theorem beqVal_iff_eq : ∀ a b : JSVal, beqVal a b = true ↔ a = b
  | .null, .null => by simp [beqVal]
  | .bool _, .bool _ => by simp [beqVal]
  | .num _, .num _ => by simp [beqVal]
  | .str _, .str _ => by simp [beqVal]
  | .arr xs, .arr ys => by simp [beqVal, beqValList_iff_eq xs ys]
  | .obj fs, .obj gs => by simp [beqVal, beqValFields_iff_eq fs gs]
  | .null, .bool _ | .null, .num _ | .null, .str _ | .null, .arr _ | .null, .obj _
  | .bool _, .null | .bool _, .num _ | .bool _, .str _ | .bool _, .arr _ | .bool _, .obj _
  | .num _, .null | .num _, .bool _ | .num _, .str _ | .num _, .arr _ | .num _, .obj _
  | .str _, .null | .str _, .bool _ | .str _, .num _ | .str _, .arr _ | .str _, .obj _
  | .arr _, .null | .arr _, .bool _ | .arr _, .num _ | .arr _, .str _ | .arr _, .obj _
  | .obj _, .null | .obj _, .bool _ | .obj _, .num _ | .obj _, .str _ | .obj _, .arr _ => by
    simp [beqVal]

theorem beqValList_iff_eq : ∀ xs ys : List JSVal, beqValList xs ys = true ↔ xs = ys
  | [], [] => by simp [beqValList]
  | x :: xs, y :: ys => by simp [beqValList, beqVal_iff_eq x y, beqValList_iff_eq xs ys]
  | [], _ :: _ => by simp [beqValList]
  | _ :: _, [] => by simp [beqValList]

theorem beqValFields_iff_eq : ∀ fs gs : List (String × JSVal), beqValFields fs gs = true ↔ fs = gs
  | [], [] => by simp [beqValFields]
  | (k, v) :: fs, (l, w) :: gs => by
    simp [beqValFields, beqVal_iff_eq v w, beqValFields_iff_eq fs gs, and_assoc]
  | [], _ :: _ => by simp [beqValFields]
  | _ :: _, [] => by simp [beqValFields]

end

instance : DecidableEq JSVal := fun a b => decidable_of_iff _ (beqVal_iff_eq a b)

/-- Split a character list on `.` (JS `path.split('.')`, structurally
recursive so that concrete paths evaluate inside proofs). -/
def splitDotChars : List Char → List (List Char)
  | [] => [[]]
  | c :: rest =>
    match splitDotChars rest with
    | seg :: segs => if c = '.' then [] :: seg :: segs else (c :: seg) :: segs
    | [] => [[]]

/-- JS `path.split('.')`: the list of dot-separated segments; the empty
string yields `[""]`, as in JS. -/
def splitDots (p : String) : List String :=
  (splitDotChars p.toList).map (fun cs => String.mk cs)

/-- JS `parts.join('.')`. -/
def joinDots (parts : List String) : String :=
  String.intercalate "." parts

namespace JSVal

/-- `Object.entries(v)`: index/value pairs for an array, the field list for an
object, empty otherwise. -/
def entriesOf : JSVal → List (String × JSVal)
  | arr xs => (List.range xs.length).zip xs |>.map (fun p => (toString p.1, p.2))
  | obj fs => fs
  | _ => []

/-- JS property read `v[field]` for a container: object key lookup, or array
index when the field is all digits. -/
def fieldOf : JSVal → String → Option JSVal
  | obj fs, f => lookupKey fs f
  | arr xs, f => match f.toNat? with
    | some i => xs.get? i
    | none => none
  | _, _ => none

end JSVal

mutual

/-- `deepEqual` from the source (`database.test.ts`, v4.5 part): `===` on
primitives (`NaN` unequal to itself), then unordered key-by-key comparison
with equal key counts.  In the tagged union, array/array comparison by index
keys reduces to elementwise comparison; a JS array never compares equal to a
plain object here because entries of different variants are kept apart. -/
def deepEqual : JSVal → JSVal → Bool
  | .null, .null => true
  | .bool a, .bool b => a == b
  | .num a, .num b => JSNum.strictEq a b
  | .str a, .str b => a == b
  | .arr xs, .arr ys => deepEqualList xs ys
  | .obj fs, .obj gs => fs.length == gs.length && deepEqualFields fs gs
  | _, _ => false

def deepEqualList : List JSVal → List JSVal → Bool
  | [], [] => true
  | x :: xs, y :: ys => deepEqual x y && deepEqualList xs ys
  | _, _ => false

def deepEqualFields : List (String × JSVal) → List (String × JSVal) → Bool
  | [], _ => true
  | (k, v) :: rest, gs =>
    (match JSVal.lookupKey gs k with
     | some w => deepEqual v w
     | none => false) && deepEqualFields rest gs

end

mutual

/-- `String()` coercion of a value, used by the native index store to key
field values and by JS `+` on non-numeric operands.  Arrays render as their
elements' strings joined by commas, objects as `[object Object]`. -/
def jsToStr : JSVal → String
  | .null => "null"
  | .bool b => if b then "true" else "false"
  | .num n => n.toStr
  | .str s => s
  | .arr xs => jsToStrList xs
  | .obj _ => "[object Object]"

def jsToStrList : List JSVal → String
  | [] => ""
  | [x] => jsToStr x
  | x :: y :: rest => jsToStr x ++ "," ++ jsToStrList (y :: rest)

end

mutual

/-- Well-formed values: every object's keys are pairwise distinct (as JS
objects guarantee) and no number is `NaN` (on which even the source's
`deepEqual` is not reflexive, since `NaN === NaN` is false). -/
def wfVal : JSVal → Bool
  | .null => true
  | .bool _ => true
  | .num .nan => false
  | .num _ => true
  | .str _ => true
  | .arr xs => wfList xs
  | .obj fs => wfFields fs

def wfList : List JSVal → Bool
  | [] => true
  | x :: xs => wfVal x && wfList xs

def wfFields : List (String × JSVal) → Bool
  | [] => true
  | (k, v) :: rest => !(rest.any (fun e => e.1 == k)) && wfVal v && wfFields rest

end

example : deepEqual (.num (.rat 1 1)) (.num (.rat 1 1)) = true := by decide
example : deepEqual (.obj [("a", .num (.rat 1 1))]) (.obj [("a", .num (.rat 1 1))]) = true := by decide
example : jsToStr (.arr [.num (.rat 1 1), .str "x"]) = "1,x" := by decide

/-- Error kinds surfaced by the engine (spec §7); only the kinds the verified
operations can raise are modelled. -/
inductive DbError where
  | typeError
  | pathError
deriving DecidableEq

/-- Modelled from the spec: the native path parser (§2, §4.2).  A dot-path
splits on `.`; the empty path addresses the root. -/
def parsePath (p : String) : List String :=
  if p = "" then [] else splitDots p

/-- Modelled from the spec: `NativeDb.get` (§3, §4.1) — walk the tree; an
object segment is a key, an array segment an all-digits index; reading
through a missing or scalar node yields absent. -/
def nativeGet : JSVal → List String → Option JSVal
  | v, [] => some v
  | .obj fs, s :: rest =>
    match JSVal.lookupKey fs s with
    | some c => nativeGet c rest
    | none => none
  | .arr xs, s :: rest =>
    match s.toNat? with
    | some i =>
      match xs.get? i with
      | some c => nativeGet c rest
      | none => none
    | none => none
  | _, _ :: _ => none

/-- Modelled from the spec: `NativeDb.set` (§3, §4.1, §4.2) — missing
intermediate segments create objects (never arrays); a non-container
intermediate is replaced by a fresh object; an array segment must be an
in-range all-digits index (out of range is an error on write); setting the
empty path replaces the root, which must be an object. -/
def nativeSet : JSVal → List String → JSVal → Except DbError JSVal
  | _, [], v => if v.isObj then .ok v else .error .pathError
  | .obj fs, s :: rest, v =>
    if rest.isEmpty then .ok (.obj (JSVal.setKey fs s v))
    else
      let child := match JSVal.lookupKey fs s with
        | some c => if c.isContainer then c else .obj []
        | none => .obj []
      (nativeSet child rest v).map (fun c => .obj (JSVal.setKey fs s c))
  | .arr xs, s :: rest, v =>
    match s.toNat? with
    | some i =>
      match xs.get? i with
      | some c =>
        if rest.isEmpty then .ok (.arr (xs.set i v))
        else
          let child := if c.isContainer then c else JSVal.obj []
          (nativeSet child rest v).map (fun c => .arr (xs.set i c))
      | none => .error .pathError
    | none => .error .pathError
  | _, s :: rest, v =>
    if rest.isEmpty then .ok (.obj [(s, v)])
    else (nativeSet (.obj []) rest v).map (fun c => .obj [(s, c)])

/-- Remove a key from a field list (JS `delete o[k]`). -/
def delKey : List (String × JSVal) → String → List (String × JSVal)
  | [], _ => []
  | (k, v) :: rest, key => if k = key then delKey rest key else (k, v) :: delKey rest key

/-- Modelled from the spec: `NativeDb.delete` (§4.1) — remove the subtree at
the path; deleting an absent path or the root is a no-op; an array element
is removed by index. -/
def nativeDelete : JSVal → List String → JSVal
  | v, [] => v
  | .obj fs, [s] => .obj (delKey fs s)
  | .obj fs, s :: rest =>
    match JSVal.lookupKey fs s with
    | some c => .obj (JSVal.setKey fs s (nativeDelete c rest))
    | none => .obj fs
  | .arr xs, [s] =>
    match s.toNat? with
    | some i => .arr (xs.eraseIdx i)
    | none => .arr xs
  | .arr xs, s :: rest =>
    match s.toNat? with
    | some i =>
      match xs.get? i with
      | some c => .arr (xs.set i (nativeDelete c rest))
      | none => .arr xs
    | none => .arr xs
  | v, _ :: _ => v

deriving instance DecidableEq for Except

example : nativeSet (.obj []) ["user", "name"] (.str "Alice")
    = .ok (.obj [("user", .obj [("name", .str "Alice")])]) := by decide
example : nativeGet (.obj [("user", .obj [("name", .str "Alice")])]) ["user", "name"]
    = some (.str "Alice") := by decide
example : parsePath "user.name" = ["user", "name"] := by decide
example : parsePath "" = [] := by decide

/-- An index declaration (`IndexConfig` in the source): name, collection
path, indexed field. -/
structure IndexConfig where
  name : String
  path : String
  field : String

/-- Modelled from the spec: the native index store (§4.3) — per index, a
mapping from the field value's string form to an ordered set of document
paths.  The Rust hash map is modelled extensionally as a function from value
keys to path lists. -/
def IndexStore : Type := String → List String

/-- The empty index (`NativeDb.clearIndex`). -/
def idxEmpty : IndexStore := fun _ => []

/-- Modelled from the spec: `NativeDb.updateIndex` (§4.3) — on insert, remove
the prior entry for the path (if any) and append the path to the bucket of
the new value key; on delete, remove the path from the given value key's
bucket. -/
def idxUpdate (st : IndexStore) (key p : String) (isDelete : Bool) : IndexStore :=
  if isDelete then
    fun k => if k = key then (st k).filter (fun q => q ≠ p) else st k
  else
    fun k =>
      if k = key then ((st k).filter (fun q => q ≠ p)) ++ [p]
      else (st k).filter (fun q => q ≠ p)

/-- WAL record operation codes (spec §4.5). -/
inductive WalOp where
  | set
  | del
  | push
deriving DecidableEq

/-- Modelled from the spec: a WAL record (§4.5) — operation, path and JSON
payload; LSNs and checksums are not needed by any claim and are omitted. -/
structure WalRecord where
  op : WalOp
  path : String
  payload : Option JSVal
deriving DecidableEq

/-- The observable state of one database: the in-memory tree, the (single
registered) index and the WAL contents. -/
structure DbState where
  root : JSVal
  index : IndexStore
  wal : List WalRecord

/-- The freshly opened database: an empty root object, empty index, empty
WAL. -/
def emptyState : DbState := ⟨.obj [], idxEmpty, []⟩

/-- Modelled from the spec: `NativeDb.set` at the state level — apply the
tree write and append one WAL record (§4.5). -/
def natSet (s : DbState) (p : String) (v : JSVal) : Except DbError DbState :=
  (nativeSet s.root (parsePath p) v).map
    (fun r => { s with root := r, wal := s.wal ++ [⟨.set, p, some v⟩] })

/-- Modelled from the spec: `NativeDb.delete` at the state level. -/
def natDelete (s : DbState) (p : String) : DbState :=
  { s with root := nativeDelete s.root (parsePath p), wal := s.wal ++ [⟨.del, p, none⟩] }

/-- Modelled from the spec: `NativeDb.push` (§4.1, §4.8, property P6) — on an
absent path create a fresh one-element array; on an array append the item
iff no deep-equal element is already present (appending writes one WAL
record); on any other existing value fail with `TypeError`. -/
def natPush (s : DbState) (p : String) (item : JSVal) : Except DbError DbState :=
  match nativeGet s.root (parsePath p) with
  | none =>
    (nativeSet s.root (parsePath p) (.arr [item])).map
      (fun r => { s with root := r, wal := s.wal ++ [⟨.push, p, some item⟩] })
  | some (.arr xs) =>
    if xs.any (fun x => deepEqual x item) then .ok s
    else
      (nativeSet s.root (parsePath p) (.arr (xs ++ [item]))).map
        (fun r => { s with root := r, wal := s.wal ++ [⟨.push, p, some item⟩] })
  | some _ => .error .typeError

/-- `updateIndicesForPath` from the source (v4.5 part, single registered
index): split the path, require at least two segments, and only when the
path minus its last segment equals the index's collection path and the value
is a non-null object (or array) with the indexed field defined, update the
native index; `isDelete` mirrors the source's flag. -/
def updateIndicesForPath (cfg : IndexConfig) (idx : IndexStore) (path : String)
    (value : Option JSVal) (isDelete : Bool) : IndexStore :=
  let parts := splitDots path
  if parts.length < 2 then idx
  else
    let collectionPath := joinDots parts.dropLast
    if collectionPath = cfg.path then
      match value with
      | some v =>
        if v.isContainer then
          match v.fieldOf cfg.field with
          | some fv => idxUpdate idx (jsToStr fv) path isDelete
          | none => idx
        else idx
      | none => idx
    else idx

/-- `rebuildIndexByName` from the source: clear the index, then walk the
entries of the collection at the index's path, inserting an entry for every
non-null object item whose indexed field is defined. -/
def rebuildIndex (cfg : IndexConfig) (root : JSVal) : IndexStore :=
  match nativeGet root (parsePath cfg.path) with
  | some c =>
    if c.isContainer then
      c.entriesOf.foldl
        (fun st kv =>
          if kv.2.isContainer then
            match kv.2.fieldOf cfg.field with
            | some fv => idxUpdate st (jsToStr fv) (cfg.path ++ "." ++ kv.1) false
            | none => st
          else st)
        idxEmpty
    else idxEmpty
  | none => idxEmpty

/-- `JSONDatabase.get` from the source: read the native value; `null` (which
the native layer also returns for an absent path) or `undefined` becomes the
caller's default, whose own default is `null`. -/
def dbGet (s : DbState) (p : String) (defaultValue : JSVal) : JSVal :=
  match nativeGet s.root (parsePath p) with
  | none => defaultValue
  | some .null => defaultValue
  | some v => v

/-- `JSONDatabase.has` from the source, via the native existence check
(modelled from the spec: a path is present iff it is reachable in the tree;
a stored `null` is present). -/
def dbHas (s : DbState) (p : String) : Bool :=
  (nativeGet s.root (parsePath p)).isSome

/-- `JSONDatabase.set` from the source, for an instance with no schemas, no
middleware and no subscribers registered (validation, middleware and
notification are then identities): native set, then incremental index
update with the new value. -/
def dbSet (cfg : IndexConfig) (s : DbState) (p : String) (v : JSVal) :
    DbState × Option DbError :=
  match natSet s p v with
  | .ok s₁ => ({ s₁ with index := updateIndicesForPath cfg s₁.index p (some v) false }, none)
  | .error e => (s, some e)

/-- `JSONDatabase.delete` from the source (same no-hook instance): capture
the old value, native delete, then incremental index update with the old
value and the delete flag. -/
def dbDelete (cfg : IndexConfig) (s : DbState) (p : String) : DbState :=
  let oldValue := nativeGet s.root (parsePath p)
  let s₁ := natDelete s p
  { s₁ with index := updateIndicesForPath cfg s₁.index p oldValue true }

/-- The loop body of `JSONDatabase.push` from the source: one native push
per supplied item; an error aborts the loop, leaving the earlier items
applied. -/
def dbPushItems (s : DbState) (p : String) : List JSVal → DbState × Option DbError
  | [] => (s, none)
  | item :: rest =>
    match natPush s p item with
    | .ok s₁ => dbPushItems s₁ p rest
    | .error e => (s, some e)

/-- `JSONDatabase.pull` from the source: read the path (default `null`); if
it holds an array, `set` it to the array with every element deep-equal to
some supplied item filtered out; otherwise do nothing. -/
def dbPull (cfg : IndexConfig) (s : DbState) (p : String) (items : List JSVal) :
    DbState × Option DbError :=
  match dbGet s p .null with
  | .arr xs =>
    dbSet cfg s p (.arr (xs.filter (fun x => !(items.any (fun i => deepEqual x i)))))
  | _ => (s, none)

/-- `JSONDatabase.add` from the source: read with default `0`; if the result
is a number, `set` the sum and return it; otherwise return the stored value
unchanged (no error is raised and nothing is written). -/
def dbAdd (cfg : IndexConfig) (s : DbState) (p : String) (amount : JSNum) :
    DbState × Except DbError JSVal :=
  match dbGet s p (.num (.rat 0 1)) with
  | .num v =>
    match dbSet cfg s p (.num (v.addN amount)) with
    | (s₁, none) => (s₁, .ok (.num (v.addN amount)))
    | (s₁, some e) => (s₁, .error e)
  | w => (s, .ok w)

/-- `JSONDatabase.subtract` from the source: literally `add(path, -amount)`. -/
def dbSubtract (cfg : IndexConfig) (s : DbState) (p : String) (amount : JSNum) :
    DbState × Except DbError JSVal :=
  dbAdd cfg s p amount.negN

example : (dbAdd ⟨"i", "users", "email"⟩ emptyState "counter" (.rat 10 1)).2
    = .ok (.num (.rat 10 1)) := by decide
example : dbGet ((dbAdd ⟨"i", "users", "email"⟩ emptyState "counter" (.rat 10 1)).1)
    "counter" .null = .num (.rat 10 1) := by decide

/-- A `BatchOperation` from the source: type, path, and the single value the
operation carries. -/
inductive BatchOp where
  | set (path : String) (value : JSVal)
  | delete (path : String)
  | push (path : String) (value : JSVal)
  | add (path : String) (value : JSNum)
  | subtract (path : String) (value : JSNum)

/-- The batch add/subtract read: `(native.get(path) as number) ?? 0` — the
stored value, with `null`/absent replaced by `0`.  The `as number` cast is a
TypeScript assertion only; a non-numeric stored value flows through
unchanged. -/
def batchGetNum (root : JSVal) (p : String) : JSVal :=
  match nativeGet root (parsePath p) with
  | none => .num (.rat 0 1)
  | some .null => .num (.rat 0 1)
  | some v => v

/-- JS string-to-number coercion (`ToNumber` of a string), restricted to
optional-sign integer numerals; the empty string is `0`, anything else
non-integral is `NaN`.  (Decimal fractions and exponents are not modelled;
no engine contract or claim reaches them.) -/
def strToNum (s : String) : JSNum :=
  if s = "" then .rat 0 1
  else match s.toInt? with
    | some n => .rat n 1
    | none => .nan

/-- JS `ToNumber` of a value, for the batch `subtract` arm's `val - n`. -/
def jsToNumber : JSVal → JSNum
  | .null => .rat 0 1
  | .bool b => .rat (if b then 1 else 0) 1
  | .num v => v
  | .str s => strToNum s
  | .arr xs => strToNum (jsToStr (.arr xs))
  | .obj _ => .nan

/-- JS `+` of a stored value and a number, for the batch `add` arm's
`val + n`: numeric addition on numbers and booleans, string concatenation
when the left operand stringifies. -/
def jsPlusArm : JSVal → JSNum → JSVal
  | .num v, n => .num (v.addN n)
  | .bool b, n => .num ((JSNum.rat (if b then 1 else 0) 1).addN n)
  | .null, n => .num n
  | .str s, n => .str (s ++ n.toStr)
  | .arr xs, n => .str (jsToStr (.arr xs) ++ n.toStr)
  | .obj fs, n => .str (jsToStr (.obj fs) ++ n.toStr)

/-- JS `-` of a stored value and a number, for the batch `subtract` arm. -/
def jsMinusArm (v : JSVal) (n : JSNum) : JSVal :=
  .num ((jsToNumber v).subN n)

/-- One arm of the `switch` in `JSONDatabase.batch` from the source: native
mutation plus incremental index update.  The `delete` arm passes `undefined`
as the value (so it never touches the index); the `add`/`subtract` arms do
the read-modify-write inline against the native layer. -/
def applyBatchOp (cfg : IndexConfig) (s : DbState) : BatchOp → Except DbError DbState
  | .set p v =>
    (natSet s p v).map
      (fun s₁ => { s₁ with index := updateIndicesForPath cfg s₁.index p (some v) false })
  | .delete p =>
    let s₁ := natDelete s p
    .ok { s₁ with index := updateIndicesForPath cfg s₁.index p none true }
  | .push p v => natPush s p v
  | .add p n =>
    let newVal := jsPlusArm (batchGetNum s.root p) n
    (natSet s p newVal).map
      (fun s₁ => { s₁ with index := updateIndicesForPath cfg s₁.index p (some newVal) false })
  | .subtract p n =>
    let newVal := jsMinusArm (batchGetNum s.root p) n
    (natSet s p newVal).map
      (fun s₁ => { s₁ with index := updateIndicesForPath cfg s₁.index p (some newVal) false })

/-- `JSONDatabase.batch` from the source: a plain loop over the operations
with no try/catch and no pre-image — the first failing operation's error
propagates, operations after it are not applied, and operations before it
remain applied. -/
def dbBatch (cfg : IndexConfig) (s : DbState) : List BatchOp → DbState × Option DbError
  | [] => (s, none)
  | op :: rest =>
    match applyBatchOp cfg s op with
    | .ok s₁ => dbBatch cfg s₁ rest
    | .error e => (s, some e)

/-- The engine operations a transaction body may invoke on the database. -/
inductive EngineOp where
  | set (p : String) (v : JSVal)
  | del (p : String)
  | push (p : String) (items : List JSVal)
  | pull (p : String) (items : List JSVal)
  | add (p : String) (n : JSNum)
  | subtract (p : String) (n : JSNum)

/-- Dispatch one engine operation (the public API surface used inside
`transaction(fn)`). -/
def runEngineOp (cfg : IndexConfig) (s : DbState) : EngineOp → DbState × Option DbError
  | .set p v => dbSet cfg s p v
  | .del p => (dbDelete cfg s p, none)
  | .push p items => dbPushItems s p items
  | .pull p items => dbPull cfg s p items
  | .add p n =>
    match dbAdd cfg s p n with
    | (s₁, .ok _) => (s₁, none)
    | (s₁, .error e) => (s₁, some e)
  | .subtract p n =>
    match dbSubtract cfg s p n with
    | (s₁, .ok _) => (s₁, none)
    | (s₁, .error e) => (s₁, some e)

/-- Run a list of engine operations in order, stopping at the first error
(an uncaught exception inside the transaction body). -/
def runOps (cfg : IndexConfig) (s : DbState) : List EngineOp → DbState × Option DbError
  | [] => (s, none)
  | op :: rest =>
    match runEngineOp cfg s op with
    | (s₁, none) => runOps cfg s₁ rest
    | (s₁, some e) => (s₁, some e)

/-- A transaction body, modelled as the engine operations it performs plus
whether it ends by throwing. -/
structure TxScript where
  ops : List EngineOp
  throws : Bool

/-- How a transaction call ended when it did not commit. -/
inductive TxOutcome where
  | userError
  | opError (e : DbError)
deriving DecidableEq

/-- `JSONDatabase.transaction` from the source (v4.5 part), for a top-level
transaction: `native.beginTransaction()` captures the pre-image, the body
runs, and on normal return `commitTransaction` keeps the result while on any
throw `rollbackTransaction` restores the pre-image and the error is
rethrown.  The begin/commit/rollback primitives live in the native binding,
which is absent from the repository; they are modelled from spec §4.8.1
(pre-image captured at begin, restored into the tree on rollback, indexes
re-derived). -/
def runTransaction (cfg : IndexConfig) (s : DbState) (tx : TxScript) :
    DbState × Option TxOutcome :=
  match runOps cfg s tx.ops with
  | (s₁, none) => if tx.throws then (s, some .userError) else (s₁, none)
  | (_, some e) => (s, some (.opError e))

/-- `QueryBuilder.applyFilters` from the source: apply each registered
filter in registration order. -/
def applyFilters (filters : List (JSVal → Bool)) (items : List JSVal) : List JSVal :=
  filters.foldl (fun acc f => acc.filter f) items

/-- `QueryBuilder.getFieldValue` from the source: walk the dot-separated
field through objects (and arrays), returning `undefined` as soon as a
non-container is reached. -/
def qbFieldGo : JSVal → List String → Option JSVal
  | v, [] => some v
  | v, part :: rest =>
    if v.isContainer then
      match v.fieldOf part with
      | some w => qbFieldGo w rest
      | none => none
    else none

/-- Field access used by the aggregation methods. -/
def qbFieldValue (item : JSVal) (field : String) : Option JSVal :=
  qbFieldGo item (splitDots field)

/-- `QueryBuilder.sum` from the source: fold `+` over the filtered items,
adding the field value when it is a number and `0` otherwise. -/
def qbSum (filters : List (JSVal → Bool)) (items : List JSVal) (field : String) : JSNum :=
  (applyFilters filters items).foldl
    (fun acc it =>
      acc.addN (match qbFieldValue it field with
        | some (.num n) => n
        | _ => .rat 0 1))
    (.rat 0 1)

/-- `QueryBuilder.avg` from the source: `0` on an empty item list, otherwise
the sum divided by the number of (all) filtered items. -/
def qbAvg (filters : List (JSVal → Bool)) (items : List JSVal) (field : String) : JSNum :=
  let its := applyFilters filters items
  if its.isEmpty then .rat 0 1
  else (qbSum filters items field).divN (.rat its.length 1)

/-- `QueryBuilder.min` from the source: `undefined` on an empty item list,
otherwise `Math.min` over the field values with every non-number mapped to
`Infinity`. -/
def qbMin (filters : List (JSVal → Bool)) (items : List JSVal) (field : String) :
    Option JSNum :=
  let its := applyFilters filters items
  if its.isEmpty then none
  else some
    ((its.map (fun it =>
        match qbFieldValue it field with
        | some (.num n) => n
        | _ => JSNum.posInf)).foldl JSNum.minN .posInf)

/-- A token of the regex that `matchesPattern` in the source compiles a
pattern to.  The source builds
`'^' + pattern.replace(/\./g,'\\.').replace(/\*/g,'[^.]*').replace(/\*\*/g,'.*') + '$'`:
every dot becomes a literal dot, every single `*` becomes `[^.]*` — and
since the second replace runs after every `*` has already been rewritten, no
`**` remains for it to find, so a `**` in the pattern also compiles to
`[^.]*[^.]*`.  For patterns made of segment characters, dots and stars the
compiled regex is therefore a sequence of literal characters and
"zero or more non-dot characters" groups. -/
inductive PatTok where
  | lit (c : Char)
  | nonDotStar
deriving DecidableEq

/-- Compile a pattern to its token sequence (see `PatTok`). -/
def compilePattern (pattern : String) : List PatTok :=
  pattern.toList.map (fun c => if c = '*' then .nonDotStar else .lit c)

/-- A state of the token regex can match the empty string iff only star
groups remain. -/
def patNullable : List PatTok → Bool
  | [] => true
  | .nonDotStar :: ts => patNullable ts
  | .lit _ :: _ => false

/-- One NFA step of the token regex on one character: the residual token
suffixes after consuming it. -/
def patStep : List PatTok → Char → List (List PatTok)
  | [], _ => []
  | .lit c :: ts, x => if c == x then [ts] else []
  | .nonDotStar :: ts, x =>
    (if x != '.' then [PatTok.nonDotStar :: ts] else []) ++ patStep ts x

/-- Run the NFA over the path: anchored matching of the compiled regex
(`RegExp.test` with the `^...$` anchors the source adds). -/
def patRun (states : List (List PatTok)) : List Char → Bool
  | [] => states.any patNullable
  | x :: xs => patRun (states.flatMap (fun ts => patStep ts x)) xs

/-- `matchesPattern` from the source: compile the pattern (cached in the
source, semantically irrelevant) and test the whole path against it. -/
def matchesPattern (pattern path : String) : Bool :=
  patRun [compilePattern pattern] path.toList

example : matchesPattern "a.b" "a.b" = true := by decide
example : matchesPattern "a.*" "a.b" = true := by decide
example : matchesPattern "a.*" "a.b.c" = false := by decide
example : matchesPattern "a.**" "a.bcd" = true := by decide

theorem lookupKey_setKey_self (fs : List (String × JSVal)) (k : String) (v : JSVal) :
    JSVal.lookupKey (JSVal.setKey fs k v) k = some v := by
  induction fs with
  | nil => simp [JSVal.setKey, JSVal.lookupKey]
  | cons hd tl ih =>
    obtain ⟨k', w⟩ := hd
    by_cases h : k' = k
    · simp [JSVal.setKey, JSVal.lookupKey, h]
    · simp [JSVal.setKey, JSVal.lookupKey, h, ih]

theorem lookupKey_setKey_other (fs : List (String × JSVal)) (k k' : String) (v : JSVal)
    (h : k' ≠ k) : JSVal.lookupKey (JSVal.setKey fs k v) k' = JSVal.lookupKey fs k' := by
  induction fs with
  | nil => simp [JSVal.setKey, JSVal.lookupKey, Ne.symm h]
  | cons hd tl ih =>
    obtain ⟨k₀, w⟩ := hd
    by_cases h₀ : k₀ = k
    · subst h₀
      simp [JSVal.setKey, JSVal.lookupKey, Ne.symm h]
    · simp [JSVal.setKey, JSVal.lookupKey, h₀, ih]

theorem lt_length_of_get?_eq_some {xs : List JSVal} {i : Nat} {c : JSVal}
    (h : xs.get? i = some c) : i < xs.length := by
  by_contra hc
  rw [List.get?_eq_none.mpr (Nat.le_of_not_lt hc)] at h
  cases h

/-- After a successful native set, reading the same path returns the value
written (spec §3: every path materialized by `set` is reachable by `get`). -/
theorem nativeGet_nativeSet : ∀ (r : JSVal) (segs : List String) (v r' : JSVal),
    nativeSet r segs v = .ok r' → nativeGet r' segs = some v := by
  intro r segs
  induction segs generalizing r with
  | nil =>
    intro v r' h
    simp only [nativeSet] at h
    split at h
    · cases h; simp [nativeGet]
    · cases h
  | cons s rest ih =>
    intro v r' h
    match r with
    | .obj fs =>
      simp only [nativeSet] at h
      split at h
      next hrest =>
        cases h
        have hr : rest = [] := List.isEmpty_iff.mp hrest
        subst hr
        simp [nativeGet, lookupKey_setKey_self]
      next hrest =>
        cases hset : nativeSet
            (match JSVal.lookupKey fs s with
             | some c => if c.isContainer then c else .obj []
             | none => .obj []) rest v with
        | ok c' =>
          rw [hset] at h
          simp only [Except.map] at h
          cases h
          simp [nativeGet, lookupKey_setKey_self, ih _ _ _ hset]
        | error e =>
          rw [hset] at h
          simp [Except.map] at h
    | .arr xs =>
      simp only [nativeSet] at h
      split at h
      next i hnat =>
        split at h
        next c hget =>
          split at h
          next hrest =>
            cases h
            have hr : rest = [] := List.isEmpty_iff.mp hrest
            subst hr
            have hi : i < xs.length := lt_length_of_get?_eq_some hget
            simp [nativeGet, hnat, List.getElem?_set_eq_of_lt _ hi]
          next hrest =>
            cases hset : nativeSet (if c.isContainer then c else JSVal.obj []) rest v with
            | ok c' =>
              rw [hset] at h
              simp only [Except.map] at h
              cases h
              have hi : i < xs.length := lt_length_of_get?_eq_some hget
              simp [nativeGet, hnat, List.getElem?_set_eq_of_lt _ hi, ih _ _ _ hset]
            | error e =>
              rw [hset] at h
              simp [Except.map] at h
        next hget => cases h
      next hnat => cases h
    | .null | .bool _ | .num _ | .str _ =>
      simp only [nativeSet] at h
      split at h
      next hrest =>
        cases h
        have hr : rest = [] := List.isEmpty_iff.mp hrest
        subst hr
        simp [nativeGet, JSVal.lookupKey]
      next hrest =>
        cases hset : nativeSet (.obj []) rest v with
        | ok c' =>
          rw [hset] at h
          simp only [Except.map] at h
          cases h
          simp [nativeGet, JSVal.lookupKey, ih _ _ _ hset]
        | error e =>
          rw [hset] at h
          simp [Except.map] at h

/-- A scalar node has no children: reading a nonempty path from it is
absent. -/
theorem nativeGet_scalar {r : JSVal} (h : r.isContainer = false) (s : String)
    (rest : List String) : nativeGet r (s :: rest) = none := by
  match r with
  | .null | .bool _ | .num _ | .str _ => simp [nativeGet]
  | .arr _ | .obj _ => simp [JSVal.isContainer] at h

/-- Writing to an existing path always succeeds: if a (nonempty) path is
readable, `nativeSet` at it returns `ok`. -/
theorem nativeSet_ok_of_get_some : ∀ (r : JSVal) (segs : List String) (v w : JSVal),
    nativeGet r segs = some w → segs ≠ [] → ∃ r', nativeSet r segs v = .ok r' := by
  intro r segs
  induction segs generalizing r with
  | nil => intro v w _ hne; exact absurd rfl hne
  | cons s rest ih =>
    intro v w hget _
    match r with
    | .obj fs =>
      simp only [nativeGet] at hget
      cases hlk : JSVal.lookupKey fs s with
      | none => simp only [hlk] at hget; cases hget
      | some c =>
        simp only [hlk] at hget
        by_cases hrest : rest.isEmpty
        · exact ⟨.obj (JSVal.setKey fs s v), by simp [nativeSet, hrest]⟩
        · have hrne : rest ≠ [] := fun hr => hrest (by simp [hr])
          have hcont : c.isContainer = true := by
            by_contra hc
            match rest, hrne with
            | s' :: rest', _ =>
              rw [nativeGet_scalar (Bool.not_eq_true _ |>.mp hc) s' rest'] at hget
              cases hget
          obtain ⟨c', hc'⟩ := ih c v w hget hrne
          refine ⟨.obj (JSVal.setKey fs s c'), ?_⟩
          simp [nativeSet, hrest, hlk, hcont, hc', Except.map]
    | .arr xs =>
      simp only [nativeGet] at hget
      cases hnat : s.toNat? with
      | none => simp only [hnat] at hget; cases hget
      | some i =>
        simp only [hnat] at hget
        cases hidx : xs.get? i with
        | none => simp only [hidx] at hget; cases hget
        | some c =>
          simp only [hidx] at hget
          have hidx2 : xs[i]? = some c := by rw [← List.get?_eq_getElem?]; exact hidx
          by_cases hrest : rest.isEmpty
          · refine ⟨.arr (xs.set i v), ?_⟩
            simp [nativeSet, hnat, hrest, hidx2]
          · have hrne : rest ≠ [] := fun hr => hrest (by simp [hr])
            have hcont : c.isContainer = true := by
              by_contra hc
              match rest, hrne with
              | s' :: rest', _ =>
                rw [nativeGet_scalar (Bool.not_eq_true _ |>.mp hc) s' rest'] at hget
                cases hget
            obtain ⟨c', hc'⟩ := ih c v w hget hrne
            refine ⟨.arr (xs.set i c'), ?_⟩
            simp [nativeSet, hnat, hrest, hidx2, hcont, hc', Except.map]
    | .null | .bool _ | .num _ | .str _ => simp [nativeGet] at hget

mutual

def sizeV : JSVal → Nat
  | .null => 1
  | .bool _ => 1
  | .num _ => 1
  | .str _ => 1
  | .arr xs => 1 + sizeL xs
  | .obj fs => 1 + sizeF fs

def sizeL : List JSVal → Nat
  | [] => 0
  | x :: xs => 1 + sizeV x + sizeL xs

def sizeF : List (String × JSVal) → Nat
  | [] => 0
  | kv :: fs => 1 + sizeV kv.2 + sizeF fs

end

theorem sizeV_le_sizeL {x : JSVal} : ∀ {xs : List JSVal}, x ∈ xs → sizeV x ≤ sizeL xs := by
  intro xs hmem
  induction xs with
  | nil => cases hmem
  | cons y ys ih =>
    rcases List.mem_cons.mp hmem with h | h
    · subst h; simp [sizeL]; omega
    · have := ih h; simp [sizeL]; omega

theorem sizeV_le_sizeF {kv : String × JSVal} : ∀ {fs : List (String × JSVal)},
    kv ∈ fs → sizeV kv.2 ≤ sizeF fs := by
  intro fs hmem
  induction fs with
  | nil => cases hmem
  | cons g gs ih =>
    rcases List.mem_cons.mp hmem with h | h
    · subst h; simp [sizeF]; omega
    · have := ih h; simp [sizeF]; omega

theorem wfList_mem {xs : List JSVal} (h : wfList xs = true) {x : JSVal} (hx : x ∈ xs) :
    wfVal x = true := by
  induction xs with
  | nil => cases hx
  | cons y ys ih =>
    simp only [wfList, Bool.and_eq_true] at h
    rcases List.mem_cons.mp hx with hh | hh
    · subst hh; exact h.1
    · exact ih h.2 hh

theorem wfFields_mem {fs : List (String × JSVal)} (h : wfFields fs = true)
    {kv : String × JSVal} (hkv : kv ∈ fs) : wfVal kv.2 = true := by
  induction fs with
  | nil => cases hkv
  | cons g gs ih =>
    obtain ⟨k, v⟩ := g
    simp only [wfFields, Bool.and_eq_true] at h
    rcases List.mem_cons.mp hkv with hh | hh
    · subst hh; exact h.1.2
    · exact ih h.2 hh

theorem wfFields_tail {k : String} {v : JSVal} {fs : List (String × JSVal)}
    (h : wfFields ((k, v) :: fs) = true) : wfFields fs = true := by
  simp only [wfFields, Bool.and_eq_true] at h
  exact h.2

theorem lookupKey_of_mem_wf : ∀ {fs : List (String × JSVal)}, wfFields fs = true →
    ∀ {k : String} {v : JSVal}, (k, v) ∈ fs → JSVal.lookupKey fs k = some v := by
  intro fs
  induction fs with
  | nil => intro _ k v h; cases h
  | cons g gs ih =>
    obtain ⟨k₀, v₀⟩ := g
    intro hwf k v hmem
    have hnodup : gs.any (fun e => e.1 == k₀) = false := by
      simp only [wfFields, Bool.and_eq_true, Bool.not_eq_true'] at hwf
      exact hwf.1.1
    rcases List.mem_cons.mp hmem with hh | hh
    · cases hh; simp [JSVal.lookupKey]
    · by_cases hk : k₀ = k
      · subst hk
        have : gs.any (fun e => e.1 == k₀) = true :=
          List.any_eq_true.mpr ⟨(k₀, v), hh, by simp⟩
        rw [this] at hnodup; cases hnodup
      · simp only [JSVal.lookupKey, if_neg hk]
        exact ih (wfFields_tail hwf) hh

theorem deepEqualList_refl {xs : List JSVal} (h : ∀ x ∈ xs, deepEqual x x = true) :
    deepEqualList xs xs = true := by
  induction xs with
  | nil => simp [deepEqualList]
  | cons y ys ih =>
    simp only [deepEqualList, Bool.and_eq_true]
    exact ⟨h y (by simp), ih (fun x hx => h x (by simp [hx]))⟩

theorem deepEqualFields_of_lookup : ∀ {fs gs : List (String × JSVal)},
    (∀ kv ∈ fs, JSVal.lookupKey gs kv.1 = some kv.2 ∧ deepEqual kv.2 kv.2 = true) →
    deepEqualFields fs gs = true := by
  intro fs
  induction fs with
  | nil => intro _ _; simp [deepEqualFields]
  | cons g rest ih =>
    obtain ⟨k, v⟩ := g
    intro gs h
    have hh := h (k, v) (by simp)
    simp only [deepEqualFields, Bool.and_eq_true]
    constructor
    · rw [hh.1]; exact hh.2
    · exact ih (fun kv hkv => h kv (by simp [hkv]))

theorem deepEqual_refl_aux : ∀ (n : Nat) (v : JSVal), sizeV v ≤ n → wfVal v = true →
    deepEqual v v = true := by
  intro n
  induction n with
  | zero =>
    intro v hs _
    exfalso
    match v with
    | .null | .bool _ | .num _ | .str _ => simp [sizeV] at hs
    | .arr _ | .obj _ => simp [sizeV] at hs
  | succ n ih =>
    intro v hs hwf
    match v with
    | .null => simp [deepEqual]
    | .bool b => simp [deepEqual]
    | .num m =>
      match m with
      | .nan => simp [wfVal] at hwf
      | .posInf => simp [deepEqual, JSNum.strictEq]
      | .negInf => simp [deepEqual, JSNum.strictEq]
      | .rat a b => simp [deepEqual, JSNum.strictEq]
    | .str s => simp [deepEqual]
    | .arr xs =>
      simp only [deepEqual]
      refine deepEqualList_refl (fun x hx => ?_)
      have h1 : sizeV x ≤ n := by
        have := sizeV_le_sizeL hx
        simp only [sizeV] at hs
        omega
      exact ih x h1 (wfList_mem (by simpa [wfVal] using hwf) hx)
    | .obj fs =>
      simp only [deepEqual, Bool.and_eq_true]
      refine ⟨by simp, deepEqualFields_of_lookup (fun kv hkv => ?_)⟩
      have hwff : wfFields fs = true := by simpa [wfVal] using hwf
      obtain ⟨k, v'⟩ := kv
      refine ⟨lookupKey_of_mem_wf hwff hkv, ?_⟩
      have h1 : sizeV v' ≤ n := by
        have := sizeV_le_sizeF hkv
        simp only [sizeV] at hs
        simp only at this
        omega
      exact ih v' h1 (wfFields_mem hwff hkv)

/-- The source's `deepEqual` is reflexive on well-formed values (no repeated
object keys, no `NaN`). -/
theorem deepEqual_refl (v : JSVal) (hwf : wfVal v = true) : deepEqual v v = true :=
  deepEqual_refl_aux (sizeV v) v le_rfl hwf

/-- The patterns whose subscribers `notifySubscribers` in the source fires
for a written path: exactly those registered patterns that `matchesPattern`
accepts. -/
def notifyFires (patterns : List String) (path : String) : List String :=
  patterns.filter (fun pat => matchesPattern pat path)

/-- The index configuration used by concrete witnesses: an index named
`email` on collection `users`, field `email` (the configuration of the
repository's own tests). -/
def cfg0 : IndexConfig := ⟨"email", "users", "email"⟩

theorem zero_addN (n : JSNum) : (JSNum.rat 0 1).addN n = n := by
  match n with
  | .nan => rfl
  | .posInf => rfl
  | .negInf => rfl
  | .rat c d => simp [JSNum.addN]

/-- C6: in subscription/middleware patterns the source's `matchesPattern`
compiles `*` to `[^.]*` before the `**` rewrite can see it, so `**` also
matches only within a single segment: the pattern `a.**` does not match the
path `a.b.c`, no subscriber on `a.**` fires for a write at `a.b.c`, and
`a.**` behaves exactly like `a.*` — contradicting the source's own doc
comment on `subscribe` (`** for multiple` segments) and the specification. -/
theorem c6_wildcard_bug :
    matchesPattern "a.**" "a.b.c" = false ∧
    notifyFires ["a.**"] "a.b.c" = [] ∧
    matchesPattern "a.**" "a.b" = true ∧
    matchesPattern "a.*" "a.b" = true ∧
    matchesPattern "a.*" "a.b.c" = false := by decide

/-- C10: `subtract(p, n)` is defined in the source as `add(p, -n)`, so it
returns the same value and produces the same database state. -/
theorem c10_subtract_is_add_neg (cfg : IndexConfig) (s : DbState) (p : String) (n : JSNum) :
    dbSubtract cfg s p n = dbAdd cfg s p n.negN := rfl

/-- C5 counterexample: with `"s"` stored at `p`, `add(p, 1)` does not fail
with a `TypeError`: it returns the stored string unchanged, leaves the
state untouched and reports no error. -/
theorem c5_counterexample :
    dbAdd cfg0 ⟨.obj [("p", .str "s")], idxEmpty, []⟩ "p" (.rat 1 1)
      = (⟨.obj [("p", .str "s")], idxEmpty, []⟩, .ok (.str "s")) := rfl

/-- C5 (amended): `add(p, n)` is a numeric read-modify-write that starts
from `0` when `p` is absent or holds `null`, stores and returns `v + n`
when `p` holds a number `v`, and for any other stored value returns that
value unchanged without writing and without raising any error. -/
theorem c5_add_semantics (cfg : IndexConfig) (s : DbState) (p : String) (n : JSNum) :
    dbAdd cfg s p n =
      match nativeGet s.root (parsePath p) with
      | some (.num v) =>
        (match dbSet cfg s p (.num (v.addN n)) with
         | (s₁, none) => (s₁, .ok (.num (v.addN n)))
         | (s₁, some e) => (s₁, .error e))
      | some .null =>
        (match dbSet cfg s p (.num n) with
         | (s₁, none) => (s₁, .ok (.num n))
         | (s₁, some e) => (s₁, .error e))
      | none =>
        (match dbSet cfg s p (.num n) with
         | (s₁, none) => (s₁, .ok (.num n))
         | (s₁, some e) => (s₁, .error e))
      | some w => (s, .ok w) := by
  unfold dbAdd dbGet
  cases hget : nativeGet s.root (parsePath p) with
  | none => simp only [zero_addN]
  | some w =>
    match w with
    | .null => simp only [zero_addN]
    | .num v => rfl
    | .bool _ | .str _ | .arr _ | .obj _ => rfl

theorem natSet_index (s : DbState) (p : String) (v : JSVal) {s₁ : DbState}
    (h : natSet s p v = .ok s₁) :
    s₁.index = s.index ∧ nativeGet s₁.root (parsePath p) = some v := by
  unfold natSet at h
  cases hset : nativeSet s.root (parsePath p) v with
  | ok r =>
    rw [hset] at h
    simp only [Except.map] at h
    cases h
    exact ⟨rfl, nativeGet_nativeSet _ _ _ _ hset⟩
  | error e =>
    rw [hset] at h
    simp [Except.map] at h

/-- C9: after `set(p, null)`, `get(p, d)` returns the default `d` rather
than `null` (and `get(p)` with no default, whose default is `null`, returns
`null`): through `get` a stored JSON null is indistinguishable from an
absent path — yet `has(p)` still answers `true` for the stored null. -/
theorem c9_null_get_default (cfg : IndexConfig) (s : DbState) (p : String)
    {s' : DbState} (hset : dbSet cfg s p .null = (s', none)) (d : JSVal) :
    dbGet s' p d = d ∧ dbGet s' p .null = .null ∧ dbHas s' p = true := by
  unfold dbSet at hset
  cases hnat : natSet s p .null with
  | ok s₁ =>
    rw [hnat] at hset
    cases hset
    obtain ⟨hidx, hroot⟩ := natSet_index s p .null hnat
    refine ⟨?_, ?_, ?_⟩ <;> simp [dbGet, dbHas, hroot]
  | error e =>
    rw [hnat] at hset
    cases hset

/-- C9 witness: on the freshly opened database, `set("p", null)` succeeds;
afterwards `get("p", "d")` returns `"d"`, `get("p")` returns `null`, and
`has("p")` returns `true`. -/
theorem c9_null_get_default_witness :
    dbGet (dbSet cfg0 emptyState "p" .null).1 "p" (.str "d") = .str "d" ∧
    dbGet (dbSet cfg0 emptyState "p" .null).1 "p" .null = .null ∧
    dbHas (dbSet cfg0 emptyState "p" .null).1 "p" = true :=
  c9_null_get_default cfg0 emptyState "p" (by rfl) (.str "d")

/-- C1 counterexample: `batch([set a 1, push a 2])` on the empty database
fails (the push hits a number and raises `TypeError`), yet the already
applied `set` is not rolled back: after the failed call `a` holds `1`,
while before the call `a` was absent — the state is not deep-equal to the
pre-call state, so `batch` is not all-or-nothing for the caller. -/
theorem c1_counterexample :
    (dbBatch cfg0 emptyState
        [.set "a" (.num (.rat 1 1)), .push "a" (.num (.rat 2 1))]).2
      = some .typeError ∧
    nativeGet (dbBatch cfg0 emptyState
        [.set "a" (.num (.rat 1 1)), .push "a" (.num (.rat 2 1))]).1.root
        (parsePath "a") = some (.num (.rat 1 1)) ∧
    nativeGet emptyState.root (parsePath "a") = none := by
  refine ⟨rfl, rfl, rfl⟩

/-- C1 (amended): when some operation of `batch(ops)` fails, the call
raises the first failing operation's error and the operations after it are
not applied — but the operations before it are not rolled back: the
resulting state is exactly the state after applying the longest error-free
prefix. -/
theorem c1_batch_first_error (cfg : IndexConfig) :
    ∀ (ops : List BatchOp) (s s' : DbState) (e : DbError),
    dbBatch cfg s ops = (s', some e) →
    ∃ i op, ops.get? i = some op ∧
      (dbBatch cfg s (ops.take i)).2 = none ∧
      applyBatchOp cfg (dbBatch cfg s (ops.take i)).1 op = .error e ∧
      s' = (dbBatch cfg s (ops.take i)).1 := by
  intro ops
  induction ops with
  | nil =>
    intro s s' e h
    simp [dbBatch] at h
  | cons op rest ih =>
    intro s s' e h
    simp only [dbBatch] at h
    cases hop : applyBatchOp cfg s op with
    | ok s₁ =>
      rw [hop] at h
      obtain ⟨i, op', h1, h2, h3, h4⟩ := ih s₁ s' e h
      refine ⟨i + 1, op', by simpa using h1, ?_, ?_, ?_⟩
      · simpa [List.take_succ_cons, dbBatch, hop] using h2
      · simpa [List.take_succ_cons, dbBatch, hop] using h3
      · simpa [List.take_succ_cons, dbBatch, hop] using h4
    | error e' =>
      rw [hop] at h
      cases h
      exact ⟨0, op, rfl, by simp [dbBatch], by simpa [dbBatch] using hop, rfl⟩

/-- C1 witness: the amended theorem applied to the concrete failing batch
of the counterexample — the failing operation is the push at position 1,
the error-free prefix is the single set, and the final state is the state
after that prefix. -/
theorem c1_batch_first_error_witness :
    ∃ i op,
      [BatchOp.set "a" (.num (.rat 1 1)), BatchOp.push "a" (.num (.rat 2 1))].get? i
        = some op ∧
      (dbBatch cfg0 emptyState
        ([BatchOp.set "a" (.num (.rat 1 1)), BatchOp.push "a" (.num (.rat 2 1))].take i)).2
        = none ∧
      applyBatchOp cfg0
        (dbBatch cfg0 emptyState
          ([BatchOp.set "a" (.num (.rat 1 1)), BatchOp.push "a" (.num (.rat 2 1))].take i)).1
        op = .error DbError.typeError ∧
      (dbBatch cfg0 emptyState
          [BatchOp.set "a" (.num (.rat 1 1)), BatchOp.push "a" (.num (.rat 2 1))]).1
        = (dbBatch cfg0 emptyState
          ([BatchOp.set "a" (.num (.rat 1 1)), BatchOp.push "a" (.num (.rat 2 1))].take i)).1 :=
  c1_batch_first_error cfg0
    [BatchOp.set "a" (.num (.rat 1 1)), BatchOp.push "a" (.num (.rat 2 1))]
    emptyState _ DbError.typeError rfl

/-- C2: if `transaction(fn)` terminates by throwing — either because `fn`
raised, or because an engine operation inside `fn` failed — the state after
the call is the pre-image captured when the transaction began: the root is
equal (hence deep-equal, for a well-formed root) to its pre-image, and no
mutation made inside `fn` survives in the tree, the index or the WAL. -/
theorem c2_transaction_rollback (cfg : IndexConfig) (s : DbState) (tx : TxScript)
    {s' : DbState} {err : TxOutcome}
    (h : runTransaction cfg s tx = (s', some err)) :
    s' = s ∧ s'.root = s.root ∧ s'.wal = s.wal ∧
    (wfVal s.root = true → deepEqual s'.root s.root = true) := by
  unfold runTransaction at h
  cases hops : runOps cfg s tx.ops with
  | mk s₁ res =>
    rw [hops] at h
    cases res with
    | none =>
      simp only at h
      by_cases ht : tx.throws
      · rw [if_pos ht] at h
        cases h
        exact ⟨rfl, rfl, rfl, fun hwf => deepEqual_refl _ hwf⟩
      · rw [if_neg ht] at h
        cases h
    | some e =>
      simp only at h
      cases h
      exact ⟨rfl, rfl, rfl, fun hwf => deepEqual_refl _ hwf⟩

/-- C2 witness: a transaction that sets `bank.alice` and `bank.bob` and
then throws leaves the freshly opened database exactly as it was. -/
theorem c2_transaction_rollback_witness :
    (runTransaction cfg0 emptyState
        ⟨[.set "bank.alice" (.num (.rat 50 1)), .set "bank.bob" (.num (.rat 80 1))],
         true⟩).1 = emptyState ∧
    (runTransaction cfg0 emptyState
        ⟨[.set "bank.alice" (.num (.rat 50 1)), .set "bank.bob" (.num (.rat 80 1))],
         true⟩).1.root = emptyState.root ∧
    (runTransaction cfg0 emptyState
        ⟨[.set "bank.alice" (.num (.rat 50 1)), .set "bank.bob" (.num (.rat 80 1))],
         true⟩).1.wal = emptyState.wal ∧
    (wfVal emptyState.root = true →
      deepEqual (runTransaction cfg0 emptyState
        ⟨[.set "bank.alice" (.num (.rat 50 1)), .set "bank.bob" (.num (.rat 80 1))],
         true⟩).1.root emptyState.root = true) := by
  have hrun : runTransaction cfg0 emptyState
      ⟨[.set "bank.alice" (.num (.rat 50 1)), .set "bank.bob" (.num (.rat 80 1))], true⟩
      = ((runTransaction cfg0 emptyState
          ⟨[.set "bank.alice" (.num (.rat 50 1)), .set "bank.bob" (.num (.rat 80 1))],
           true⟩).1, some TxOutcome.userError) := rfl
  exact c2_transaction_rollback cfg0 emptyState
    ⟨[.set "bank.alice" (.num (.rat 50 1)), .set "bank.bob" (.num (.rat 80 1))], true⟩ hrun

/-- C4 counterexample: `push("tags", 1, 1, 2)` on the absent path `tags`
yields `[1, 2]` (deduplicated) — but the call appends two WAL records, one
per item actually appended, not the single record the claim asserts. -/
theorem c4_counterexample :
    (dbPushItems emptyState "tags"
        [.num (.rat 1 1), .num (.rat 1 1), .num (.rat 2 1)]).2 = none ∧
    dbGet (dbPushItems emptyState "tags"
        [.num (.rat 1 1), .num (.rat 1 1), .num (.rat 2 1)]).1 "tags" .null
      = .arr [.num (.rat 1 1), .num (.rat 2 1)] ∧
    (dbPushItems emptyState "tags"
        [.num (.rat 1 1), .num (.rat 1 1), .num (.rat 2 1)]).1.wal.length = 2 := by
  refine ⟨rfl, rfl, rfl⟩

/-- C4 (amended): `push(p, x, x, y)` on an absent path `p` (with `x`
well-formed and not deep-equal to `y`, and the fresh array writable at `p`)
yields `[x, y]` — each supplied item is appended iff it is not deep-equal
to an element already present — and the call appends one WAL record per
item actually appended (here two), not a single record per call. -/
theorem c4_push_dedup (s : DbState) (p : String) (x y : JSVal) (r₁ : JSVal)
    (habs : nativeGet s.root (parsePath p) = none)
    (hset : nativeSet s.root (parsePath p) (.arr [x]) = .ok r₁)
    (hwx : wfVal x = true)
    (hxy : deepEqual x y = false) :
    ∃ s', dbPushItems s p [x, x, y] = (s', none) ∧
      nativeGet s'.root (parsePath p) = some (.arr [x, y]) ∧
      s'.wal = s.wal ++ [⟨.push, p, some x⟩, ⟨.push, p, some y⟩] := by
  have hpne : parsePath p ≠ [] := by
    intro hp
    rw [hp] at habs
    simp [nativeGet] at habs
  have hr₁ : nativeGet r₁ (parsePath p) = some (.arr [x]) :=
    nativeGet_nativeSet _ _ _ _ hset
  set s₁ : DbState := { s with root := r₁, wal := s.wal ++ [⟨.push, p, some x⟩] } with hs₁
  have hstep1 : natPush s p x = .ok s₁ := by
    unfold natPush
    rw [habs, hset]
    rfl
  have hs₁root : s₁.root = r₁ := rfl
  have hstep2 : natPush s₁ p x = .ok s₁ := by
    unfold natPush
    simp only [hs₁root, hr₁]
    simp [deepEqual_refl x hwx]
  obtain ⟨r₂, hr₂⟩ :=
    nativeSet_ok_of_get_some r₁ (parsePath p) (.arr ([x] ++ [y])) (.arr [x]) hr₁ hpne
  have hr₂' : nativeSet r₁ (parsePath p) (.arr [x, y]) = .ok r₂ := by
    simpa using hr₂
  set s₂ : DbState := { s₁ with root := r₂, wal := s₁.wal ++ [⟨.push, p, some y⟩] } with hs₂
  have hstep3 : natPush s₁ p y = .ok s₂ := by
    unfold natPush
    simp only [hs₁root, hr₁]
    simp [hxy, hr₂', Except.map, hs₂, hs₁]
  refine ⟨s₂, ?_, ?_, ?_⟩
  · unfold dbPushItems
    rw [hstep1]
    unfold dbPushItems
    rw [hstep2]
    unfold dbPushItems
    rw [hstep3]
    rfl
  · have := nativeGet_nativeSet _ _ _ _ hr₂'
    simpa using this
  · simp [hs₂, hs₁]

/-- C4 witness: the amended push theorem at the counterexample's input —
`push("tags", 1, 1, 2)` from the empty database yields `[1, 2]` and two WAL
records. -/
theorem c4_push_dedup_witness :
    ∃ s', dbPushItems emptyState "tags"
        [.num (.rat 1 1), .num (.rat 1 1), .num (.rat 2 1)] = (s', none) ∧
      nativeGet s'.root (parsePath "tags")
        = some (.arr [.num (.rat 1 1), .num (.rat 2 1)]) ∧
      s'.wal = emptyState.wal ++
        [⟨.push, "tags", some (.num (.rat 1 1))⟩, ⟨.push, "tags", some (.num (.rat 2 1))⟩] :=
  c4_push_dedup emptyState "tags" (.num (.rat 1 1)) (.num (.rat 2 1))
    (.obj [("tags", .arr [.num (.rat 1 1)])]) rfl rfl rfl rfl

/-- C8: for a path holding an array, `pull(p, items…)` replaces the array
with the result of filtering out every element deep-equal to some supplied
item, preserving the order of the remaining elements. -/
theorem c8_pull_filters (cfg : IndexConfig) (s : DbState) (p : String)
    (items : List JSVal) (xs : List JSVal)
    (hold : nativeGet s.root (parsePath p) = some (.arr xs))
    (hp : parsePath p ≠ []) :
    ∃ s', dbPull cfg s p items = (s', none) ∧
      nativeGet s'.root (parsePath p)
        = some (.arr (xs.filter (fun x => !(items.any (fun i => deepEqual x i))))) := by
  obtain ⟨r', hr'⟩ := nativeSet_ok_of_get_some s.root (parsePath p)
    (.arr (xs.filter (fun x => !(items.any (fun i => deepEqual x i))))) (.arr xs) hold hp
  have hnat : natSet s p (.arr (xs.filter (fun x => !(items.any (fun i => deepEqual x i)))))
      = .ok { s with
          root := r',
          wal := s.wal ++ [⟨.set, p,
            some (.arr (xs.filter (fun x => !(items.any (fun i => deepEqual x i)))))⟩] } := by
    unfold natSet
    rw [hr']
    rfl
  refine ⟨{ s with
      root := r',
      index := updateIndicesForPath cfg s.index p
        (some (.arr (xs.filter (fun x => !(items.any (fun i => deepEqual x i)))))) false,
      wal := s.wal ++ [⟨.set, p,
        some (.arr (xs.filter (fun x => !(items.any (fun i => deepEqual x i)))))⟩] }, ?_, ?_⟩
  · unfold dbPull
    simp only [dbGet, hold]
    unfold dbSet
    rw [hnat]
  · simpa using nativeGet_nativeSet _ _ _ _ hr'

/-- C8 witness: the specification's scenario — with `tags` holding
`["a", "b", "c"]` (the state after `set("tags", ["a"])` and
`push("tags", "b", "b", "c")`), `pull("tags", "a")` leaves `["b", "c"]`. -/
theorem c8_pull_filters_witness :
    ∃ s', dbPull cfg0
        ⟨.obj [("tags", .arr [.str "a", .str "b", .str "c"])], idxEmpty, []⟩
        "tags" [.str "a"] = (s', none) ∧
      nativeGet s'.root (parsePath "tags") = some (.arr [.str "b", .str "c"]) := by
  obtain ⟨s', h1, h2⟩ := c8_pull_filters cfg0
    ⟨.obj [("tags", .arr [.str "a", .str "b", .str "c"])], idxEmpty, []⟩
    "tags" [.str "a"] [.str "a", .str "b", .str "c"] rfl (by decide)
  refine ⟨s', h1, ?_⟩
  rw [h2]
  rfl

/-- C7 counterexample: in `avg`, a non-numeric field value is not ignored —
it contributes `0` to the sum while still counting in the denominator, so
the average of `{f: 2}` and `{f: "x"}` is `1`, not `2`; and `min` over the
non-empty all-non-numeric collection `[{f: "x"}]` returns `Infinity` rather
than being absent. -/
theorem c7_counterexample :
    JSNum.strictEq
      (qbAvg [] [.obj [("f", .num (.rat 2 1))], .obj [("f", .str "x")]] "f")
      (.rat 1 1) = true ∧
    JSNum.strictEq
      (qbAvg [] [.obj [("f", .num (.rat 2 1))], .obj [("f", .str "x")]] "f")
      (.rat 2 1) = false ∧
    qbMin [] [.obj [("f", .str "x")]] "f" = some .posInf ∧
    qbMin [] [] "f" = none ∧
    qbAvg [] [] "f" = .rat 0 1 := by decide

/-- The integer a document contributes to `sum`: its field value when that
is an integer-valued number, `0` otherwise. -/
def intContrib (field : String) (it : JSVal) : Int :=
  match qbFieldValue it field with
  | some (.num (.rat a 1)) => a
  | _ => 0

theorem qbSum_foldl_int (field : String) :
    ∀ (items : List JSVal) (acc : Int),
      (∀ it ∈ items, (∃ a : Int, qbFieldValue it field = some (.num (.rat a 1))) ∨
        (∀ n : JSNum, qbFieldValue it field ≠ some (.num n))) →
      items.foldl
        (fun (b : JSNum) (it : JSVal) =>
          b.addN (match qbFieldValue it field with
            | some (.num n) => n
            | _ => .rat 0 1))
        (.rat acc 1)
        = .rat (acc + (items.map (intContrib field)).sum) 1 := by
  intro items
  induction items with
  | nil => intro acc _; simp
  | cons it rest ih =>
    intro acc h
    have hit := h it (by simp)
    have hrest : ∀ it' ∈ rest, (∃ a : Int, qbFieldValue it' field = some (.num (.rat a 1))) ∨
        (∀ n : JSNum, qbFieldValue it' field ≠ some (.num n)) :=
      fun it' hm => h it' (by simp [hm])
    rcases hit with ⟨a, ha⟩ | hnn
    · have hstep : (JSNum.rat acc 1).addN
          (match qbFieldValue it field with
            | some (.num n) => n
            | _ => .rat 0 1) = .rat (acc + a) 1 := by
        rw [ha]
        simp [JSNum.addN]
      have hc : intContrib field it = a := by
        unfold intContrib
        rw [ha]
      simp only [List.foldl_cons, hstep, List.map_cons, List.sum_cons, hc]
      rw [ih (acc + a) hrest]
      ring_nf
    · have hfv : (match qbFieldValue it field with
            | some (.num n) => n
            | _ => JSNum.rat 0 1) = .rat 0 1 := by
        cases hq : qbFieldValue it field with
        | none => rfl
        | some w =>
          match w with
          | .num n => exact absurd hq (hnn n)
          | .null | .bool _ | .str _ | .arr _ | .obj _ => rfl
      have hstep : (JSNum.rat acc 1).addN
          (match qbFieldValue it field with
            | some (.num n) => n
            | _ => .rat 0 1) = .rat acc 1 := by
        rw [hfv]
        simp [JSNum.addN]
      have hc : intContrib field it = 0 := by
        unfold intContrib
        cases hq : qbFieldValue it field with
        | none => rfl
        | some w =>
          match w with
          | .num n => exact absurd hq (hnn n)
          | .null | .bool _ | .str _ | .arr _ | .obj _ => rfl
      simp only [List.foldl_cons, hstep, List.map_cons, List.sum_cons, hc]
      rw [show (JSNum.rat acc 1).addN (.rat 0 1) = .rat acc 1 by simp [JSNum.addN]]
      rw [ih acc hrest]
      ring_nf

theorem foldl_minN_posInf : ∀ (l : List JSNum), (∀ z ∈ l, z = JSNum.posInf) →
    l.foldl JSNum.minN .posInf = .posInf := by
  intro l
  induction l with
  | nil => intro _; rfl
  | cons z rest ih =>
    intro h
    have hz : z = JSNum.posInf := h z (by simp)
    subst hz
    simpa [JSNum.minN] using ih (fun w hw => h w (by simp [hw]))

/-- C7 (amended): `min` of an empty collection is absent and `avg` of an
empty collection is `0`, as claimed.  But non-numeric field values are not
simply ignored: in `sum` they contribute `0`; in `avg` they contribute `0`
to the sum while still counting in the denominator (for integer-valued data
the average is the numeric total over the count of all items); and `min`
maps every non-numeric value to `Infinity`, so `min` over a non-empty
collection whose field values are all non-numeric returns `Infinity` rather
than being absent. -/
theorem c7_aggregation_semantics :
    (∀ field : String, qbMin [] [] field = none) ∧
    (∀ field : String, qbAvg [] [] field = .rat 0 1) ∧
    (∀ (items : List JSVal) (field : String), items ≠ [] →
      (∀ it ∈ items, ∀ n : JSNum, qbFieldValue it field ≠ some (.num n)) →
      qbMin [] items field = some .posInf) ∧
    (∀ (items : List JSVal) (field : String),
      (∀ it ∈ items, (∃ a : Int, qbFieldValue it field = some (.num (.rat a 1))) ∨
        (∀ n : JSNum, qbFieldValue it field ≠ some (.num n))) →
      qbSum [] items field = .rat ((items.map (intContrib field)).sum) 1 ∧
      (items ≠ [] →
        qbAvg [] items field
          = .rat ((items.map (intContrib field)).sum) items.length)) := by
  have happ : ∀ items : List JSVal, applyFilters [] items = items := fun _ => rfl
  have hsum : ∀ (items : List JSVal) (field : String),
      (∀ it ∈ items, (∃ a : Int, qbFieldValue it field = some (.num (.rat a 1))) ∨
        (∀ n : JSNum, qbFieldValue it field ≠ some (.num n))) →
      qbSum [] items field = .rat ((items.map (intContrib field)).sum) 1 := by
    intro items field h
    unfold qbSum
    rw [happ]
    have := qbSum_foldl_int field items 0 h
    simpa using this
  refine ⟨fun field => rfl, fun field => rfl, ?_, ?_⟩
  · intro items field hne hnn
    unfold qbMin
    rw [happ]
    have hempty : items.isEmpty = false := by
      cases items with
      | nil => exact absurd rfl hne
      | cons a l => rfl
    simp only [hempty, Bool.false_eq_true, if_false, Option.some.injEq]
    refine foldl_minN_posInf _ (fun z hz => ?_)
    obtain ⟨it, hit, hzeq⟩ := List.mem_map.mp hz
    cases hq : qbFieldValue it field with
    | none => rw [hq] at hzeq; exact hzeq.symm
    | some w =>
      match w with
      | .num n => exact absurd hq (hnn it hit n)
      | .null => rw [hq] at hzeq; exact hzeq.symm
      | .bool _ => rw [hq] at hzeq; exact hzeq.symm
      | .str _ => rw [hq] at hzeq; exact hzeq.symm
      | .arr _ => rw [hq] at hzeq; exact hzeq.symm
      | .obj _ => rw [hq] at hzeq; exact hzeq.symm
  · intro items field h
    refine ⟨hsum items field h, fun hne => ?_⟩
    unfold qbAvg
    rw [happ]
    have hempty : items.isEmpty = false := by
      cases items with
      | nil => exact absurd rfl hne
      | cons a l => rfl
    simp only [hempty, Bool.false_eq_true, if_false]
    rw [hsum items field h]
    have hlen : (items.length : Int) ≠ 0 := by
      have : items.length ≠ 0 := fun hl => hne (List.length_eq_zero.mp hl)
      exact_mod_cast this
    have hsign : Int.sign (items.length : Int) = 1 := by
      rw [Int.sign_eq_one_iff_pos]
      have : 0 < items.length := Nat.pos_of_ne_zero (fun hl => hne (List.length_eq_zero.mp hl))
      exact_mod_cast this
    simp only [JSNum.divN]
    rw [if_neg hlen, hsign]
    simp

/-- C7 witness: the amended aggregation theorem applied to concrete
collections — empty, all-non-numeric `[{f:"x"}]`, and the mixed
`[{f:2},{f:"x"}]`, whose average divides the numeric total by the count of
all items. -/
theorem c7_aggregation_semantics_witness :
    qbMin [] [] "f" = none ∧
    qbAvg [] [] "f" = .rat 0 1 ∧
    qbMin [] [.obj [("f", .str "x")]] "f" = some .posInf ∧
    qbSum [] [.obj [("f", .num (.rat 2 1))], .obj [("f", .str "x")]] "f"
      = .rat (([JSVal.obj [("f", .num (.rat 2 1))],
          JSVal.obj [("f", .str "x")]].map (intContrib "f")).sum) 1 ∧
    qbAvg [] [.obj [("f", .num (.rat 2 1))], .obj [("f", .str "x")]] "f"
      = .rat (([JSVal.obj [("f", .num (.rat 2 1))],
          JSVal.obj [("f", .str "x")]].map (intContrib "f")).sum)
          ([JSVal.obj [("f", .num (.rat 2 1))], JSVal.obj [("f", .str "x")]].length) := by
  have hmix : ∀ it ∈ [JSVal.obj [("f", .num (.rat 2 1))], JSVal.obj [("f", .str "x")]],
      (∃ a : Int, qbFieldValue it "f" = some (.num (.rat a 1))) ∨
        (∀ n : JSNum, qbFieldValue it "f" ≠ some (.num n)) := by
    intro it hit
    rcases List.mem_cons.mp hit with hh | hh
    · subst hh
      exact Or.inl ⟨2, rfl⟩
    · simp only [List.mem_singleton] at hh
      subst hh
      refine Or.inr (fun n hq => ?_)
      rw [show qbFieldValue (.obj [("f", .str "x")]) "f" = some (.str "x") from rfl] at hq
      simp at hq
  have hall := c7_aggregation_semantics
  refine ⟨hall.1 "f", hall.2.1 "f", ?_, ?_, ?_⟩
  · refine hall.2.2.1 [.obj [("f", .str "x")]] "f" (by simp) ?_
    intro it hit n hq
    simp only [List.mem_singleton] at hit
    subst hit
    rw [show qbFieldValue (.obj [("f", .str "x")]) "f" = some (.str "x") from rfl] at hq
    simp at hq
  · exact (hall.2.2.2 _ "f" hmix).1
  · exact (hall.2.2.2 _ "f" hmix).2 (by simp)

/-- C3 counterexample: with index `{email on users}`, after
`set("users.alice", {email:"a"})` followed by the strictly deeper
`set("users.alice.email", "b")`, the incremental index still maps `"a"` to
`users.alice` and has no entry for `"b"`, while a full rebuild from the
tree maps `"b"` to `users.alice` and nothing to `"a"` — the deeper mutation
did not re-derive the field value, so the incremental index differs from
the rebuild. -/
theorem c3_counterexample :
    (dbSet cfg0 (dbSet cfg0 emptyState "users.alice" (.obj [("email", .str "a")])).1
        "users.alice.email" (.str "b")).1.index "a" = ["users.alice"] ∧
    (dbSet cfg0 (dbSet cfg0 emptyState "users.alice" (.obj [("email", .str "a")])).1
        "users.alice.email" (.str "b")).1.index "b" = [] ∧
    rebuildIndex cfg0
      (dbSet cfg0 (dbSet cfg0 emptyState "users.alice" (.obj [("email", .str "a")])).1
        "users.alice.email" (.str "b")).1.root "a" = [] ∧
    rebuildIndex cfg0
      (dbSet cfg0 (dbSet cfg0 emptyState "users.alice" (.obj [("email", .str "a")])).1
        "users.alice.email" (.str "b")).1.root "b" = ["users.alice"] ∧
    nativeGet
      (dbSet cfg0 (dbSet cfg0 emptyState "users.alice" (.obj [("email", .str "a")])).1
        "users.alice.email" (.str "b")).1.root (parsePath "users.alice.email")
      = some (.str "b") := by
  refine ⟨rfl, rfl, rfl, rfl, rfl⟩

theorem joinDots_single (x : String) : joinDots [x] = x := rfl

theorem idxUpdate_insert_self (st : IndexStore) (key p : String) :
    p ∈ idxUpdate st key p false key := by
  unfold idxUpdate
  simp

theorem idxUpdate_insert_other (st : IndexStore) (key p k : String) (h : k ≠ key) :
    p ∉ idxUpdate st key p false k := by
  unfold idxUpdate
  simp [h]

/-- C3 (amended): the incremental index maintenance reacts only to
mutations whose path is exactly one segment below the collection path.  A
`set` at `collection_path.k` with an object value carrying the indexed
field refreshes the index: the document path moves into (exactly) the
bucket of the new field value's string key.  A `set` at any path whose
parent is not the collection path — in particular any strictly deeper path
such as `collection_path.k.field` — leaves the incremental index
completely unchanged, so it does not re-derive the field value and (as the
counterexample shows) the incremental index need not equal a full rebuild. -/
theorem c3_index_maintenance (cfg : IndexConfig) :
    (∀ (s : DbState) (p : String) (v : JSVal),
      joinDots (splitDots p).dropLast ≠ cfg.path →
      (dbSet cfg s p v).1.index = s.index) ∧
    (∀ (s : DbState) (p k : String) (fields : List (String × JSVal)) (fv : JSVal)
      (s₁ : DbState),
      splitDots p = [cfg.path, k] →
      JSVal.lookupKey fields cfg.field = some fv →
      natSet s p (.obj fields) = .ok s₁ →
      (dbSet cfg s p (.obj fields)).1.index
          = idxUpdate s.index (jsToStr fv) p false ∧
      p ∈ (dbSet cfg s p (.obj fields)).1.index (jsToStr fv) ∧
      (∀ key, key ≠ jsToStr fv → p ∉ (dbSet cfg s p (.obj fields)).1.index key)) := by
  constructor
  · intro s p v hne
    unfold dbSet
    cases hnat : natSet s p v with
    | error e => rfl
    | ok s₁ =>
      have hidx : s₁.index = s.index := (natSet_index s p v hnat).1
      simp only
      unfold updateIndicesForPath
      by_cases hlen : (splitDots p).length < 2
      · simp [hlen, hidx]
      · simp [hlen, if_neg hne, hidx]
  · intro s p k fields fv s₁ hsplit hlk hnat
    have hidx : s₁.index = s.index := (natSet_index s p (.obj fields) hnat).1
    have hmain : (dbSet cfg s p (.obj fields)).1.index
        = idxUpdate s.index (jsToStr fv) p false := by
      unfold dbSet
      rw [hnat]
      simp only
      unfold updateIndicesForPath
      rw [hsplit]
      simp only [List.length_cons, List.length_nil, List.dropLast]
      rw [joinDots_single]
      simp only [if_pos rfl, JSVal.isContainer, JSVal.fieldOf, hlk, hidx]
      rfl
    refine ⟨hmain, ?_, ?_⟩
    · rw [hmain]
      exact idxUpdate_insert_self _ _ _
    · intro key hkey
      rw [hmain]
      exact idxUpdate_insert_other _ _ _ _ hkey

/-- C3 witness: the amended index-maintenance theorem at the
counterexample's inputs — the direct-child `set("users.alice", {email:"a"})`
refreshes the index bucket of `"a"`, and the deeper
`set("users.alice.email", "b")` leaves the index untouched. -/
theorem c3_index_maintenance_witness :
    ((dbSet cfg0 (dbSet cfg0 emptyState "users.alice" (.obj [("email", .str "a")])).1
        "users.alice.email" (.str "b")).1.index
      = (dbSet cfg0 emptyState "users.alice" (.obj [("email", .str "a")])).1.index) ∧
    "users.alice" ∈ (dbSet cfg0 emptyState "users.alice"
        (.obj [("email", .str "a")])).1.index "a" ∧
    "users.alice" ∉ (dbSet cfg0 emptyState "users.alice"
        (.obj [("email", .str "a")])).1.index "b" := by
  have h := c3_index_maintenance cfg0
  refine ⟨?_, ?_, ?_⟩
  · exact h.1 (dbSet cfg0 emptyState "users.alice" (.obj [("email", .str "a")])).1
      "users.alice.email" (.str "b") (by decide)
  · have h2 := h.2 emptyState "users.alice" "alice" [("email", .str "a")] (.str "a")
      ⟨.obj [("users", .obj [("alice", .obj [("email", .str "a")])])], idxEmpty,
        [⟨.set, "users.alice", some (.obj [("email", .str "a")])⟩]⟩
      (by decide) rfl rfl
    exact h2.2.1
  · have h2 := h.2 emptyState "users.alice" "alice" [("email", .str "a")] (.str "a")
      ⟨.obj [("users", .obj [("alice", .obj [("email", .str "a")])])], idxEmpty,
        [⟨.set, "users.alice", some (.obj [("email", .str "a")])⟩]⟩
      (by decide) rfl rfl
    exact h2.2.2 "b" (by decide)
